import Mathlib

-- Verification of the idioteque resumable-workflow engine
-- (packages/idioteque/src/worker.ts, path dialect) and its reference
-- stores (packages/idioteque/src/store.ts).  Strings are modelled as
-- lists of characters; the per-execution portion of the memory store is
-- an association list from task paths to task states.

namespace Idioteque

/-- Character-list model of JavaScript strings. -/
abbrev Str := List Char

/-- Committed values are opaque JSON-serialisable values; we model the
two shapes the tests exercise, strings and numbers.  A JavaScript
`undefined` is `Option.none` one level up. -/
inductive JsVal where
  | str (s : Str)
  | num (n : Int)
deriving DecidableEq, Repr

/-- JavaScript value-or-undefined: `none` is `undefined`. -/
abbrev JVal := Option JsVal

/-- The reserved sentinel committed for an absent step result
(types.ts: `EMPTY_EXECUTION_RESULT = "<empty_execution_result>"`). -/
def EMPTY_EXECUTION_RESULT : JsVal := .str "<empty_execution_result>".toList

/-- Substitution performed at commit time
(worker.ts:185 `result === undefined ? EMPTY_EXECUTION_RESULT : result`). -/
def commitVal (v : JVal) : JsVal :=
  match v with
  | none => EMPTY_EXECUTION_RESULT
  | some x => x

/-- Translation of a committed value back to the handler-visible value
(worker.ts:209-211 `executionResult === EMPTY_EXECUTION_RESULT ? undefined :
executionResult`). -/
def visVal (w : JsVal) : JVal :=
  if w = EMPTY_EXECUTION_RESULT then none else some w

/-- Removal of a single leading colon, as in `.replace(/^:/, "")`
(worker.ts:130). -/
def stripLead (s : Str) : Str :=
  match s with
  | ':' :: rest => rest
  | other => other

/-- Path composition of worker.ts:130:
`fullTaskId = (path + ":" + taskId).replace(/^:/, "")`. -/
def joinTask (path key : Str) : Str :=
  stripLead (path ++ ':' :: key)

/-- JavaScript `s.split(":")` on character lists: leftmost splitting at
every colon, `"".split(":") = [""]`. -/
def splitColon : Str → List Str
  | [] => [[]]
  | c :: rest =>
    if c = ':' then [] :: splitColon rest
    else
      match splitColon rest with
      | h :: t => (c :: h) :: t
      | [] => [[c]]

/-- JavaScript `parts.join(":")`. -/
def joinColon : List Str → Str
  | [] => []
  | [s] => s
  | s :: rest => s ++ ':' :: joinColon rest

/-- Parent path computation of worker.ts:188-189:
`fullTaskId.split(":").slice(0, -1).join(":")`, then `parentTaskId ||
undefined` (the empty string is falsy). -/
def parentTask (full : Str) : Option Str :=
  let p := joinColon (splitColon full).dropLast
  if p = [] then none else some p

/-- Per-task record of the memory store (store.ts: `{ value?; transaction? }`;
`beginExecutionTask` writes `{ transaction: true }`,
`commitExecutionTaskResult` overwrites with `{ value }`). -/
inductive TaskState where
  | inProgress
  | committed (v : JsVal)
deriving DecidableEq, Repr

/-- Association-list lookup keyed by task path. -/
def assocGet (k : Str) : List (Str × α) → Option α
  | [] => none
  | (k2, v) :: rest => if k2 = k then some v else assocGet k rest

/-- Removal of a key from an association list. -/
def assocDrop (k : Str) : List (Str × α) → List (Str × α)
  | [] => []
  | (k2, v) :: rest =>
    if k2 = k then assocDrop k rest else (k2, v) :: assocDrop k rest

/-- Association-list update, modelling a JavaScript object assignment. -/
def assocSet (k : Str) (v : α) (m : List (Str × α)) : List (Str × α) :=
  (k, v) :: assocDrop k m

/-- The slice of the memory store belonging to one execution id:
whether `store[executionId]` is present, and its task records. -/
structure ExecStore where
  live : Bool
  tasks : List (Str × TaskState)
deriving DecidableEq, Repr

/-- store.ts `getExecutionTaskResult`: `store[executionId]?.[taskId]?.value`. -/
def storeGetResult (s : ExecStore) (full : Str) : JVal :=
  if s.live then
    match assocGet full s.tasks with
    | some (.committed v) => some v
    | _ => none
  else none

/-- store.ts `isExecutionTaskInProgress`:
`store[executionId]?.[taskId]?.transaction || false`. -/
def storeTaskInProg (s : ExecStore) (full : Str) : Bool :=
  if s.live then
    match assocGet full s.tasks with
    | some .inProgress => true
    | _ => false
  else false

/-- store.ts `beginExecutionTask`:
`store[executionId][taskId] = { transaction: true }`. -/
def storeBeginTask (s : ExecStore) (full : Str) : ExecStore :=
  { s with tasks := assocSet full .inProgress s.tasks }

/-- store.ts `commitExecutionTaskResult`:
`store[executionId][taskId] = { value }`. -/
def storeCommitResult (s : ExecStore) (full : Str) (w : JsVal) : ExecStore :=
  { s with tasks := assocSet full (.committed w) s.tasks }

/-- store.ts `disposeExecution`: `delete store[executionId]`. -/
def storeDispose (_s : ExecStore) : ExecStore :=
  { live := false, tasks := [] }

/-- Engine state threaded through one mount dispatch: the store slice of
the current execution plus the in-memory execution cache of
worker.ts:91-117. -/
structure EngSt where
  store : ExecStore
  cache : List (Str × JsVal)
deriving DecidableEq, Repr

/-- worker.ts:94-106 `getExecutionTaskResultCached`: consult the
execution cache first, then the store. -/
def cachedGet (s : EngSt) (full : Str) : JVal :=
  match assocGet full s.cache with
  | some v => some v
  | none => storeGetResult s.store full

/-- worker.ts:108-117 `commitExecutionTaskResultCached`: write the cache
and the store. -/
def commitCached (s : EngSt) (full : Str) (w : JsVal) : EngSt :=
  { store := storeCommitResult s.store full w
    cache := assocSet full w s.cache }

/-- Observable effects of a dispatch, in order of occurrence:
store writes, continuation enqueues (worker.ts `enqueueTask`), callback
invocations together with the fresh path scope they run in, and
invocations of the configured `onError` hook.  The path-dialect worker
of packages/idioteque/src/worker.ts contains no call site for `onError`
(it is only stored by `configure` and returned by `getOptions`), so no
rule of this development emits `onErrCall`; the constructor exists so
that claims about `onError` are statable.  Contrast
packages/core/src/worker.ts:228, where the older flat-dialect worker
does call `onError` on handler failure. -/
inductive Ev where
  | beginTask (full : Str)
  | commit (full : Str) (w : JsVal)
  | enqueue (taskId : Option Str)
  | invoke (scope : Str)
  | onErrCall (e : Str)
deriving DecidableEq, Repr

/-- Reasons carried by `WorkerInterrupt` (worker.ts:193-197, 218-220,
227-229), with the interpolated task ids kept as data. -/
inductive IntReason where
  | committed (full : Str) (next : Option Str)
  | inProgressSkip (full : Str)
  | triggered (full : Str)
deriving DecidableEq, Repr

/-- Settlement of a promise: resolved, rejected with a `WorkerInterrupt`,
or rejected with an application error. -/
inductive Outcome (α : Type) where
  | ok (v : α)
  | interrupt (r : IntReason)
  | error (e : Str)
deriving DecidableEq, Repr

/-- Result of running a piece of handler code: its settlement, the engine
state it leaves behind, and the effects it produced in order. -/
structure Res where
  out : Outcome JVal
  st : EngSt
  evs : List Ev
deriving DecidableEq, Repr

/-- Targeting test of worker.ts:132: `context.taskId?.startsWith(fullTaskId)`. -/
def enterCheck (ctx : Option Str) (full : Str) : Bool :=
  match ctx with
  | some t => full.isPrefixOf t
  | none => false

/-- Marks the invocation of a callback in a fresh path scope
(worker.ts:135-140 `pathAsyncLocalStore.run(fullTaskId, () => ...
callback(...))`). -/
def invokeMark (full : Str) (r : Res) : Res :=
  { r with evs := .invoke full :: r.evs }

/-- Lines 180-198 of worker.ts: what the engine does with the settled
callback.  On resolution it commits the (sentinel-substituted) value
under the full path, enqueues one continuation bearing the parent task
id, and throws a `WorkerInterrupt`; a rejection passes through. -/
def commitPhase (full : Str) (r : Res) : Res :=
  match r.out with
  | .ok v =>
    let w := commitVal v
    let next := parentTask full
    { out := .interrupt (.committed full next)
      st := commitCached r.st full w
      evs := r.evs ++ [.commit full w, .enqueue next] }
  | _ => r

/-- Lines 200-229 of worker.ts: the step is not targeted.  Cached
committed values short-circuit (translating the sentinel back to
`undefined`); an in-progress path interrupts without effects; otherwise
the engine begins the task, enqueues a continuation bearing the full
path, and interrupts. -/
def shortcutStep (full : Str) (s : EngSt) : Res :=
  match cachedGet s full with
  | some w => { out := .ok (visVal w), st := s, evs := [] }
  | none =>
    if storeTaskInProg s.store full then
      { out := .interrupt (.inProgressSkip full), st := s, evs := [] }
    else
      { out := .interrupt (.triggered full)
        st := { s with store := storeBeginTask s.store full }
        evs := [.beginTask full, .enqueue (some full)] }

/-- One `execute(taskKey, callback)` call, worker.ts:119-230, with the
callback abstracted as a state transformer: compose the full path, run
the callback in a fresh scope when the inbound task id targets this step
(then commit/enqueue/interrupt), otherwise take the shortcut path. -/
def executeStep (ctx : Option Str) (path key : Str)
    (runBody : EngSt → Res) (s : EngSt) : Res :=
  let full := joinTask path key
  if enterCheck ctx full then
    commitPhase full (invokeMark full (runBody s))
  else
    shortcutStep full s

/-- Handler programs: straight-line async code whose only interactions
with the engine are `execute` calls, possibly wrapped in try/catch, plus
returning a value or throwing an application error.  The continuation of
an `exec` receives the value the `execute` call resolved with; the
catch continuation of `tryExec` receives a thrown application error. -/
inductive Prog where
  | ret (v : JVal)
  | fail (e : Str)
  | exec (key : Str) (body : Prog) (k : JVal → Prog)
  | tryExec (key : Str) (body : Prog) (k : JVal → Prog) (h : Str → Prog)

/-- Interpreter for handler programs, mirroring worker.ts:119-230 at
each `execute` call site.  A `WorkerInterrupt` coming out of a nested
`execute` rejects the main handler promise directly (worker.ts:155-167:
`reject(err)` without `executeReject(err)`), so it skips both the
continuation and any application catch block; an application error is
delivered to the `execute` promise (worker.ts:169 `executeReject(err)`)
and is therefore catchable. -/
def runProg (ctx : Option Str) (path : Str) (s : EngSt) : Prog → Res
  | .ret v => { out := .ok v, st := s, evs := [] }
  | .fail e => { out := .error e, st := s, evs := [] }
  | .exec key body k =>
    let r := executeStep ctx path key
      (fun s2 => runProg ctx (joinTask path key) s2 body) s
    match r.out with
    | .ok v =>
      let r2 := runProg ctx path r.st (k v)
      { out := r2.out, st := r2.st, evs := r.evs ++ r2.evs }
    | .interrupt rz => { out := .interrupt rz, st := r.st, evs := r.evs }
    | .error e => { out := .error e, st := r.st, evs := r.evs }
  | .tryExec key body k h =>
    let r := executeStep ctx path key
      (fun s2 => runProg ctx (joinTask path key) s2 body) s
    match r.out with
    | .ok v =>
      let r2 := runProg ctx path r.st (k v)
      { out := r2.out, st := r2.st, evs := r.evs ++ r2.evs }
    | .interrupt rz => { out := .interrupt rz, st := r.st, evs := r.evs }
    | .error e =>
      let r2 := runProg ctx path r.st (h e)
      { out := r2.out, st := r2.st, evs := r.evs ++ r2.evs }

/-- Sequencing of a step result with the code following the `execute`
call: a resolution continues, a rejection of either kind aborts the
enclosing callback (this is the exec branch of `runProg`). -/
def strictBind (r : Res) (f : JVal → EngSt → Res) : Res :=
  match r.out with
  | .ok v =>
    let r2 := f v r.st
    { out := r2.out, st := r2.st, evs := r.evs ++ r2.evs }
  | .interrupt rz => { out := .interrupt rz, st := r.st, evs := r.evs }
  | .error e => { out := .error e, st := r.st, evs := r.evs }

/-- Sequencing of a step result under a surrounding try/catch: an
application error is delivered to the catch continuation, while a
WorkerInterrupt still aborts the whole callback (this is the tryExec
branch of `runProg`). -/
def catchBind (r : Res) (f : JVal → EngSt → Res) (g : Str → EngSt → Res) : Res :=
  match r.out with
  | .ok v =>
    let r2 := f v r.st
    { out := r2.out, st := r2.st, evs := r.evs ++ r2.evs }
  | .interrupt rz => { out := .interrupt rz, st := r.st, evs := r.evs }
  | .error e =>
    let r2 := g e r.st
    { out := r2.out, st := r2.st, evs := r.evs ++ r2.evs }

/-- A registered worker function: its id, whether its event filter
accepts the (fixed) event being dispatched, and its handler. -/
structure Func where
  fid : Str
  accepts : Bool
  handler : Prog

/-- The top-level `execute` call made for one function by
`dispatchEventToFunctions` (worker.ts:67-77): task id is the function
id, the callback runs the handler, and the ambient path scope starts
empty. -/
def execTop (ctx : Option Str) (f : Func) (s : EngSt) : Res :=
  executeStep ctx [] f.fid
    (fun s2 => runProg ctx (joinTask [] f.fid) s2 f.handler) s

/-- One admissible schedule of `Promise.allSettled` over the functions
(worker.ts:66-78): settle each function in registration order, threading
the shared store and cache; the settlement list preserves registration
order, as `allSettled` does. -/
def settleAll (ctx : Option Str) (s : EngSt) :
    List Func → List (Outcome JVal) × EngSt × List Ev
  | [] => ([], s, [])
  | f :: rest =>
    let r := execTop ctx f s
    let (os, s2, evs2) := settleAll ctx r.st rest
    (r.out :: os, s2, r.evs ++ evs2)

/-- Rejections among the settlements, in order
(worker.ts:79-81: filter `status === "rejected"`, map `reason`).
Interrupt rejections are included, as in the source. -/
def rejections : List (Outcome JVal) → List (Outcome Unit)
  | [] => []
  | .ok _ :: rest => rejections rest
  | .interrupt r :: rest => .interrupt r :: rejections rest
  | .error e :: rest => .error e :: rejections rest

/-- worker.ts:51-89 `dispatchEventToFunctions`: skip silently when the
execution is not live in the store; otherwise settle every function,
rethrow the first rejection if any, and only when all functions
resolved dispose the execution. -/
def dispatchToFunctions (funcs : List Func) (ctx : Option Str) (s : EngSt) :
    Outcome Unit × EngSt × List Ev :=
  if s.store.live then
    let (os, s2, evs) := settleAll ctx s funcs
    match rejections os with
    | [] => (.ok (), { s2 with store := storeDispose s2.store }, evs)
    | e :: _ => (e, s2, evs)
  else
    (.ok (), s, [])

/-- Execution modes of the mount (worker.ts:277, 319). -/
inductive Mode where
  | isolated
  | untilError
deriving DecidableEq, Repr

/-- The continuation task ids a dispatch passed to `enqueueTask`, in
order. -/
def collectEnqs (evs : List Ev) : List (Option Str) :=
  evs.filterMap (fun e => match e with | .enqueue t => some t | _ => none)

/-- Result of a whole `mount.execute` call: settlement, final engine
state, effect trace, and the envelopes published through the
dispatcher. -/
structure MRes where
  out : Outcome Unit
  st : EngSt
  evs : List Ev
  pubs : List (Option Str)
deriving DecidableEq, Repr

/-- The dispatch loop of worker.ts:308-345: pop a context, dispatch it
to all target functions, treat an Interrupt as a suspension and
continue; in UNTIL_ERROR mode push enqueued continuations onto the
in-memory queue, in ISOLATED mode publish them via the dispatcher.  A
non-Interrupt error rejects the whole call.  `fuel` bounds the number of
iterations; `none` means the bound was hit. -/
def mountLoop (mode : Mode) (funcs : List Func) :
    Nat → EngSt → List (Option Str) → Option MRes
  | _, s, [] => some { out := .ok (), st := s, evs := [], pubs := [] }
  | 0, _, _ :: _ => none
  | fuel + 1, s, t :: rest =>
    let (o, s2, evs) := dispatchToFunctions funcs t s
    let enqs := collectEnqs evs
    let contQ := match mode with
      | .untilError => rest ++ enqs
      | .isolated => rest
    let newPubs : List (Option Str) := match mode with
      | .untilError => []
      | .isolated => enqs
    match o with
    | .error e => some { out := .error e, st := s2, evs := evs, pubs := newPubs }
    | _ =>
      match mountLoop mode funcs fuel s2 contQ with
      | none => none
      | some m =>
        some { out := m.out, st := m.st, evs := evs ++ m.evs,
               pubs := newPubs ++ m.pubs }

/-- worker.ts:280-346 `mount.execute`: filter the functions by the
event; return early if none match; synthesize a context and call
`beginExecution` when no inbound context is given (`ctx? = none`);
start with an empty execution cache (the cited store has no
`getExecutionTaskResults`) and run the dispatch loop on a queue seeded
with the inbound context. -/
def mountExecute (mode : Mode) (funcs : List Func) (ctx? : Option (Option Str))
    (s0 : ExecStore) (fuel : Nat) : Option MRes :=
  let target := funcs.filter (fun f => f.accepts)
  if target.isEmpty then
    some { out := .ok (), st := { store := s0, cache := [] }, evs := [], pubs := [] }
  else
    let (store1, ctx) : ExecStore × Option Str :=
      match ctx? with
      | none => ({ live := true, tasks := [] }, none)
      | some t => (s0, t)
    mountLoop mode target fuel { store := store1, cache := [] } [ctx]

/-- The onError invocations recorded in a trace.  The path-dialect
worker never emits one (see `Ev.onErrCall`). -/
def onErrObserved (evs : List Ev) : List Str :=
  evs.filterMap (fun e => match e with | .onErrCall s => some s | _ => none)

/-- Reading of the targeting condition in the words of claim C1: the
inbound task id equals the full path or extends it with further
colon-separated path segments. -/
def segDescends (t full : Str) : Prop :=
  t = full ∨ (full ++ [':']).isPrefixOf t = true

instance (t full : Str) : Decidable (segDescends t full) :=
  decidable_of_iff (t = full ∨ (full ++ [':']).isPrefixOf t = true) Iff.rfl

/-- Reading of the enqueued parent in the words of claim C3: the parent
path obtained by stripping the last colon-separated segment, or no task
id when the path has a single segment. -/
def claimParent (full : Str) : Option Str :=
  if (splitColon full).length = 1 then none
  else some (joinColon (splitColon full).dropLast)

/-- A straight-line step callback: it may use the values the handler
received for the earlier steps and produces this step result
(`none` models returning `undefined`). -/
abbrev StepFn := List JVal → JVal

/-- A handler that performs the listed `execute` calls in source order,
each callback seeing the results of the earlier steps, and finally
returns `fret` of all step results. -/
def seqProg (fret : List JVal → JVal) : List (Str × StepFn) → List JVal → Prog
  | [], acc => .ret (fret acc)
  | (key, f) :: rest, acc =>
    .exec key (.ret (f acc)) (fun v => seqProg fret rest (acc ++ [v]))

/-- Expected effect trace of a complete UNTIL_ERROR run, from a loop
state whose queue holds the function-id context and whose cache holds
the already-committed steps with handler-visible values `acc`: each
remaining step contributes a trigger pop (begin + enqueue) and an
execute pop (invoke + commit + enqueue parent), and the final two pops
commit the handler result under the function id and then resolve from
cache so the execution is disposed. -/
def c5Trace (fid : Str) (fret : List JVal → JVal) :
    List (Str × StepFn) → List JVal → List Ev
  | [], acc =>
    [.invoke fid, .commit fid (commitVal (fret acc)), .enqueue none]
  | (key, f) :: rest, acc =>
    let fl := fid ++ ':' :: key
    let w := commitVal (f acc)
    .invoke fid :: .beginTask fl :: .enqueue (some fl) ::
    .invoke fid :: .invoke fl :: .commit fl w :: .enqueue (some fid) ::
    c5Trace fid fret rest (acc ++ [visVal w])

/-- The step-callback invocations in a trace: invoke events whose scope
is not the function-level scope `fid`. -/
def stepInvokes (fid : Str) (evs : List Ev) : List Str :=
  evs.filterMap (fun e => match e with
    | .invoke p => if p = fid then none else some p
    | _ => none)

/-- Neither string is a character-level prefix of the other (in
particular the two strings differ). -/
def noMutual (a b : Str) : Prop :=
  ¬ a <+: b ∧ ¬ b <+: a

instance (a b : Str) : Decidable (noMutual a b) :=
  decidable_of_iff (¬ a.isPrefixOf b = true ∧ ¬ b.isPrefixOf a = true)
    (by unfold noMutual
        rw [List.isPrefixOf_iff_prefix, List.isPrefixOf_iff_prefix])

/-- Simple injective rendering of a value as its JSON text
(`JSON.stringify`): enough structure for the store models, which only
ever parse what they themselves serialised. -/
def jsonEnc : JsVal → Str
  | .str s => '"' :: s ++ ['"']
  | .num n => (toString n).toList

/-- State of `createRedisStore` (store.ts:19-60) for one execution: the
`{executionId}-transactions` hash and the `{executionId}-results` hash
(fields are task paths, values are strings). -/
structure RedisSt where
  trans : List (Str × Str)
  results : List (Str × Str)
deriving DecidableEq, Repr

/-- Association-list removal, modelling `hdel`. -/
def assocDel (k : Str) (m : List (Str × α)) : List (Str × α) :=
  assocDrop k m

/-- store.ts:36-38 `isExecutionTaskInProgress` for redis:
`Boolean(await redis.hget(...))`; a present field holds the nonempty
string "true", and `Boolean` of a string tests nonemptiness. -/
def redisTaskInProg (st : RedisSt) (full : Str) : Bool :=
  match assocGet full st.trans with
  | some s => !s.isEmpty
  | none => false

/-- store.ts:24-32 `getExecutionTaskResult` for redis returns a value
exactly when the results hash has the field. -/
def redisResultVisible (st : RedisSt) (full : Str) : Bool :=
  (assocGet full st.results).isSome

/-- store.ts:39-43 `beginExecutionTask` for redis. -/
def redisBeginTask (st : RedisSt) (full : Str) : RedisSt :=
  { st with trans := assocSet full "true".toList st.trans }

/-- The `redis.hdel` half of the redis commit (store.ts:46). -/
def redisHdelTrans (st : RedisSt) (full : Str) : RedisSt :=
  { st with trans := assocDel full st.trans }

/-- The `redis.hset` half of the redis commit (store.ts:47-49). -/
def redisHsetResult (st : RedisSt) (full : Str) (v : JsVal) : RedisSt :=
  { st with results := assocSet full (jsonEnc v) st.results }

/-- store.ts:44-51 `commitExecutionTaskResult` for redis runs the two
halves under `Promise.all`, i.e. concurrently: an observer can be
scheduled after either half alone has taken effect.  These are the two
possible intermediate states. -/
def redisCommitMidStates (st : RedisSt) (full : Str) (v : JsVal) : List RedisSt :=
  [redisHdelTrans st full, redisHsetResult st full v]

/-- The final state of the redis commit (both halves applied, either
order gives the same state). -/
def redisCommitDone (st : RedisSt) (full : Str) (v : JsVal) : RedisSt :=
  redisHsetResult (redisHdelTrans st full) full v

/-- State of `createFileSystemStore` (store.ts:114-184) for one
execution: which `{taskId}.transaction` files and `{taskId}.result`
files exist (with the result file contents). -/
structure FsSt where
  transFiles : List Str
  resultFiles : List (Str × Str)
deriving DecidableEq, Repr

/-- store.ts:154-162 `isExecutionTaskInProgress` for the filesystem:
`fs.access` on the transaction file succeeds exactly when it exists. -/
def fsTaskInProg (st : FsSt) (full : Str) : Bool :=
  full ∈ st.transFiles

/-- store.ts:128-143 `getExecutionTaskResult` for the filesystem returns
a value exactly when the result file exists. -/
def fsResultVisible (st : FsSt) (full : Str) : Bool :=
  (assocGet full st.resultFiles).isSome

/-- store.ts:164-166 `beginExecutionTask` for the filesystem. -/
def fsBeginTask (st : FsSt) (full : Str) : FsSt :=
  { st with transFiles := st.transFiles.insert full }

/-- The `fs.writeFile` half of the filesystem commit (store.ts:169-172). -/
def fsWriteResult (st : FsSt) (full : Str) (v : JsVal) : FsSt :=
  { st with resultFiles := assocSet full (jsonEnc v) st.resultFiles }

/-- The `fs.unlink` half of the filesystem commit (store.ts:174). -/
def fsUnlinkTrans (st : FsSt) (full : Str) : FsSt :=
  { st with transFiles := st.transFiles.erase full }

/-- store.ts:168-175 `commitExecutionTaskResult` for the filesystem is
sequential: it awaits the result write before unlinking the transaction
file.  The states an observer can see from the start of the commit on
are therefore exactly these three. -/
def fsCommitStates (st : FsSt) (full : Str) (v : JsVal) : List FsSt :=
  [st, fsWriteResult st full v, fsUnlinkTrans (fsWriteResult st full v) full]

-- Helper lemmas ------------------------------------------------------

theorem assocGet_drop_ne {α : Type} (k k2 : Str) (m : List (Str × α))
    (h : k2 ≠ k) :
    assocGet k2 (assocDrop k m) = assocGet k2 m := by
  induction m with
  | nil => rfl
  | cons hd tl ih =>
    obtain ⟨k1, v1⟩ := hd
    by_cases hk : k1 = k
    · rw [show assocDrop k ((k1, v1) :: tl) = assocDrop k tl by
        simp [assocDrop, hk], ih]
      have hne : ¬ k1 = k2 := fun he => h (he.symm.trans hk)
      simp [assocGet, hne]
    · rw [show assocDrop k ((k1, v1) :: tl) = (k1, v1) :: assocDrop k tl by
        simp [assocDrop, hk]]
      by_cases he : k1 = k2
      · simp [assocGet, he]
      · simp [assocGet, he, ih]

theorem assocGet_set_self {α : Type} (k : Str) (v : α) (m : List (Str × α)) :
    assocGet k (assocSet k v m) = some v := by
  simp [assocSet, assocGet]

theorem assocGet_set_ne {α : Type} (k k2 : Str) (v : α) (m : List (Str × α))
    (h : k2 ≠ k) :
    assocGet k2 (assocSet k v m) = assocGet k2 m := by
  simp only [assocSet, assocGet]
  rw [if_neg (fun he => h he.symm), assocGet_drop_ne _ _ _ h]

theorem cachedGet_commit_self (s : EngSt) (full : Str) (w : JsVal) :
    cachedGet (commitCached s full w) full = some w := by
  simp [cachedGet, commitCached, assocGet_set_self]

theorem cachedGet_commit_ne (s : EngSt) (full full2 : Str) (w : JsVal)
    (h : full2 ≠ full) :
    cachedGet (commitCached s full w) full2 = cachedGet s full2 := by
  simp only [cachedGet, commitCached, storeCommitResult, storeGetResult,
    assocGet_set_ne _ _ _ _ h]

theorem cachedGet_begin_ne (s : EngSt) (full full2 : Str)
    (h : full2 ≠ full) :
    cachedGet { s with store := storeBeginTask s.store full } full2
      = cachedGet s full2 := by
  simp only [cachedGet, storeBeginTask, storeGetResult,
    assocGet_set_ne _ _ _ _ h]

theorem commitPhase_invokeMark_evs (full : Str) (r : Res) :
    ∃ tl, (commitPhase full (invokeMark full r)).evs = .invoke full :: tl := by
  cases h : r.out <;> simp [commitPhase, invokeMark, h]

theorem shortcutStep_evs (full : Str) (s : EngSt) :
    (shortcutStep full s).evs = []
    ∨ (shortcutStep full s).evs = [.beginTask full, .enqueue (some full)] := by
  unfold shortcutStep
  cases cachedGet s full
  · by_cases h : storeTaskInProg s.store full = true
    · simp [h]
    · simp [h]
  · simp

theorem runProg_exec_eq (ctx : Option Str) (path : Str) (s : EngSt)
    (key : Str) (body : Prog) (k : JVal → Prog) :
    runProg ctx path s (.exec key body k)
      = strictBind
          (executeStep ctx path key
            (fun s2 => runProg ctx (joinTask path key) s2 body) s)
          (fun v s2 => runProg ctx path s2 (k v)) := by
  rw [runProg, strictBind]

theorem runProg_tryExec_eq (ctx : Option Str) (path : Str) (s : EngSt)
    (key : Str) (body : Prog) (k : JVal → Prog) (h : Str → Prog) :
    runProg ctx path s (.tryExec key body k h)
      = catchBind
          (executeStep ctx path key
            (fun s2 => runProg ctx (joinTask path key) s2 body) s)
          (fun v s2 => runProg ctx path s2 (k v))
          (fun e s2 => runProg ctx path s2 (h e)) := by
  rw [runProg, catchBind]

theorem collectEnqs_append (a b : List Ev) :
    collectEnqs (a ++ b) = collectEnqs a ++ collectEnqs b := by
  simp [collectEnqs]

theorem collectEnqs_invoke (f : Str) (l : List Ev) :
    collectEnqs (.invoke f :: l) = collectEnqs l := by
  simp [collectEnqs]

theorem executeStep_ok (ctx : Option Str) (path key : Str)
    (rb : EngSt → Res) (s : EngSt) (v : JVal)
    (h : (executeStep ctx path key rb s).out = .ok v) :
    executeStep ctx path key rb s = { out := .ok v, st := s, evs := [] } := by
  revert h
  unfold executeStep
  by_cases he : enterCheck ctx (joinTask path key) = true
  · rw [if_pos he]
    cases hb : (rb s).out <;>
      simp [commitPhase, invokeMark, hb]
  · rw [if_neg he]
    unfold shortcutStep
    cases hc : cachedGet s (joinTask path key) with
    | none =>
      by_cases hip : storeTaskInProg s.store (joinTask path key) = true <;>
        simp [hip]
    | some w =>
      intro h
      simp at h
      simp [h]

theorem executeStep_error (ctx : Option Str) (path key : Str)
    (rb : EngSt → Res) (s : EngSt) (e : Str)
    (h : (executeStep ctx path key rb s).out = .error e) :
    (rb s).out = .error e
    ∧ executeStep ctx path key rb s
      = { out := .error e, st := (rb s).st,
          evs := .invoke (joinTask path key) :: (rb s).evs } := by
  revert h
  unfold executeStep
  by_cases he : enterCheck ctx (joinTask path key) = true
  · rw [if_pos he]
    cases hb : (rb s).out <;>
      simp [commitPhase, invokeMark, hb]
  · rw [if_neg he]
    unfold shortcutStep
    cases hc : cachedGet s (joinTask path key) with
    | none =>
      by_cases hip : storeTaskInProg s.store (joinTask path key) = true <;>
        simp [hip]
    | some w => simp

theorem runProg_settled_no_enqs (p : Prog) :
    ∀ (ctx : Option Str) (path : Str) (s : EngSt),
    (∀ rz, (runProg ctx path s p).out ≠ .interrupt rz) →
    collectEnqs (runProg ctx path s p).evs = [] := by
  induction p with
  | ret v => intro ctx path s _; simp [runProg, collectEnqs]
  | fail e => intro ctx path s _; simp [runProg, collectEnqs]
  | exec key body k ihb ihk =>
    intro ctx path s h
    rw [runProg_exec_eq] at h ⊢
    cases hout : (executeStep ctx path key
        (fun s2 => runProg ctx (joinTask path key) s2 body) s).out with
    | ok v =>
      rw [executeStep_ok _ _ _ _ _ _ hout] at h ⊢
      rw [strictBind] at h ⊢
      simp only [List.nil_append] at h ⊢
      exact ihk v ctx path s h
    | interrupt rz =>
      exfalso
      apply h rz
      rw [strictBind]
      split <;> simp_all
    | error e =>
      obtain ⟨hb, hes⟩ := executeStep_error _ _ _ _ _ _ hout
      rw [hes] at h ⊢
      rw [strictBind] at h ⊢
      simp only at h ⊢
      rw [collectEnqs_invoke]
      exact ihb ctx (joinTask path key) s (by rw [hb]; intro rz hcon; cases hcon)
  | tryExec key body k h2 ihb ihk ihh =>
    intro ctx path s h
    rw [runProg_tryExec_eq] at h ⊢
    cases hout : (executeStep ctx path key
        (fun s2 => runProg ctx (joinTask path key) s2 body) s).out with
    | ok v =>
      rw [executeStep_ok _ _ _ _ _ _ hout] at h ⊢
      rw [catchBind] at h ⊢
      simp only [List.nil_append] at h ⊢
      exact ihk v ctx path s h
    | interrupt rz =>
      exfalso
      apply h rz
      rw [catchBind]
      split <;> simp_all
    | error e =>
      obtain ⟨hb, hes⟩ := executeStep_error _ _ _ _ _ _ hout
      rw [hes] at h ⊢
      rw [catchBind] at h ⊢
      simp only at h ⊢
      rw [collectEnqs_append, collectEnqs_invoke]
      rw [show collectEnqs (runProg ctx (joinTask path key) s body).evs = []
        from ihb ctx (joinTask path key) s (by rw [hb]; intro rz hcon; cases hcon)]
      simp only [List.nil_append]
      exact ihh e ctx path _ h

-- C1 ------------------------------------------------------------------

/-- C1, counterexample.  The claim says a step with full path p is
entered exactly when the inbound taskId equals p or extends p with
further colon-separated segments.  The code (worker.ts:132) tests a raw
string prefix: with full path "a:b" and inbound taskId "a:bc" the step
IS entered (the callback is invoked, witnessed by the leading invoke
event), although "a:bc" neither equals "a:b" nor extends it with a
colon-separated segment. -/
theorem c1_counterexample :
    (∃ tl, (executeStep (some "a:bc".toList) [] "a:b".toList
        (fun s => { out := .ok none, st := s, evs := [] })
        { store := { live := true, tasks := [] }, cache := [] }).evs
      = .invoke (joinTask [] "a:b".toList) :: tl)
    ∧ ¬ segDescends "a:bc".toList (joinTask [] "a:b".toList) := by
  refine ⟨⟨[.commit (joinTask [] "a:b".toList) EMPTY_EXECUTION_RESULT,
    .enqueue (parentTask (joinTask [] "a:b".toList))], ?_⟩, ?_⟩
  · decide
  · decide

/-- C1, amended.  For every execute call, with p the computed full
path, the engine enters the step (invoking the callback in a fresh path
scope whose value is p, witnessed by the invoke event carrying p)
exactly when the inbound context carries a taskId of which p is a
character-level prefix; segment boundaries are not checked
(worker.ts:129-138). -/
theorem c1_amended (ctx : Option Str) (path key : Str)
    (runBody : EngSt → Res) (s : EngSt) :
    (∃ tl, (executeStep ctx path key runBody s).evs
        = .invoke (joinTask path key) :: tl)
    ↔ (∃ t, ctx = some t ∧ joinTask path key <+: t) := by
  unfold executeStep
  by_cases henter : enterCheck ctx (joinTask path key) = true
  · rw [if_pos henter]
    constructor
    · intro _
      match ctx, henter with
      | some t, henter =>
        refine ⟨t, rfl, ?_⟩
        have : (joinTask path key).isPrefixOf t = true := henter
        exact List.isPrefixOf_iff_prefix.mp this
    · intro _
      exact commitPhase_invokeMark_evs _ _
  · rw [if_neg henter]
    constructor
    · intro hev
      rcases hev with ⟨tl, hev⟩
      rcases shortcutStep_evs (joinTask path key) s with h | h <;>
        rw [h] at hev <;> simp at hev
    · rintro ⟨t, rfl, hpre⟩
      exact absurd (show enterCheck (some t) (joinTask path key) = true from
        List.isPrefixOf_iff_prefix.mpr hpre) henter

-- C2 ------------------------------------------------------------------

/-- C2.  A handler wraps a nested execute call in try/catch.  Whenever
the engine step for that call rejects with a WorkerInterrupt - raised
by the step itself on its begin or commit path, or bubbling up from a
descendant execute inside its callback - the whole handler run rejects
with exactly that Interrupt: the right-hand side mentions neither the
continuation k nor the catch block h, so the catch block is never
entered and the inner execute call never resumes its caller
(worker.ts:135-178, in particular the comment at 161-164: `reject(err)`
on the main promise, never `executeReject(err)`). -/
theorem c2_interrupt_bypasses_catch (ctx : Option Str) (path : Str)
    (s : EngSt) (key : Str) (body : Prog) (k : JVal → Prog)
    (h : Str → Prog) (rz : IntReason)
    (hint : (executeStep ctx path key
        (fun s2 => runProg ctx (joinTask path key) s2 body) s).out
      = .interrupt rz) :
    runProg ctx path s (.tryExec key body k h)
      = { out := .interrupt rz,
          st := (executeStep ctx path key
            (fun s2 => runProg ctx (joinTask path key) s2 body) s).st,
          evs := (executeStep ctx path key
            (fun s2 => runProg ctx (joinTask path key) s2 body) s).evs } := by
  rw [runProg_tryExec_eq, catchBind, hint]

/-- C2 witness: a concrete entered step whose callback resolves; its
commit path raises the Interrupt past the try/catch. -/
theorem c2_interrupt_bypasses_catch_witness :
    ((executeStep (some "f:a".toList) "f".toList "a".toList
        (fun s2 => runProg (some "f:a".toList)
          (joinTask "f".toList "a".toList) s2 (.ret (some (.num 5))))
        { store := { live := true, tasks := [] }, cache := [] }).out
      = .interrupt (.committed "f:a".toList (some "f".toList)))
    ∧ runProg (some "f:a".toList) "f".toList
        { store := { live := true, tasks := [] }, cache := [] }
        (.tryExec "a".toList (.ret (some (.num 5)))
          (fun _ => .ret none) (fun _ => .ret none))
      = { out := .interrupt (.committed "f:a".toList (some "f".toList)),
          st := (executeStep (some "f:a".toList) "f".toList "a".toList
            (fun s2 => runProg (some "f:a".toList)
              (joinTask "f".toList "a".toList) s2 (.ret (some (.num 5))))
            { store := { live := true, tasks := [] }, cache := [] }).st,
          evs := (executeStep (some "f:a".toList) "f".toList "a".toList
            (fun s2 => runProg (some "f:a".toList)
              (joinTask "f".toList "a".toList) s2 (.ret (some (.num 5))))
            { store := { live := true, tasks := [] }, cache := [] }).evs } := by
  refine ⟨by decide, ?_⟩
  exact c2_interrupt_bypasses_catch _ _ _ _ _ _ _ _ (by decide)

-- C10 -----------------------------------------------------------------

/-- C10.  Two execute calls with the same taskKey at the same nesting
level compute the same full path, so once a value w is committed under
that path, a non-targeted handler run resolves both calls from cache
with the same value and never invokes either callback: the run is
independent of both callback bodies (here even failing bodies are never
reached), the engine raises no duplicate-key error, and the run
continues as if both steps returned the committed value
(worker.ts:129-132, 200-211). -/
theorem c10_duplicate_keys (ctx : Option Str) (path key : Str)
    (s : EngSt) (w : JsVal)
    (hne : enterCheck ctx (joinTask path key) = false)
    (hc : cachedGet s (joinTask path key) = some w)
    (b1 b2 : Prog) (k : JVal → JVal → Prog) :
    runProg ctx path s (.exec key b1 (fun v1 => .exec key b2 (k v1)))
      = runProg ctx path s (k (visVal w) (visVal w)) := by
  have hstep : ∀ rb, executeStep ctx path key rb s
      = { out := .ok (visVal w), st := s, evs := [] } := by
    intro rb
    unfold executeStep shortcutStep
    rw [if_neg (by simp [hne]), hc]
  rw [runProg_exec_eq, hstep, strictBind]
  simp only [List.nil_append]
  rw [runProg_exec_eq, hstep, strictBind]
  simp only [List.nil_append]

/-- C10 witness: with "k" committed as 7 and a non-targeting context,
both duplicate calls yield 7 even though both callbacks would throw. -/
theorem c10_duplicate_keys_witness :
    (enterCheck none (joinTask [] "k".toList) = false
      ∧ cachedGet ({ store := { live := true, tasks := [] },
                     cache := [("k".toList, JsVal.num 7)] } : EngSt)
          (joinTask [] "k".toList)
          = some (.num 7))
    ∧ runProg none []
        { store := { live := true, tasks := [] },
          cache := [("k".toList, JsVal.num 7)] }
        (.exec "k".toList (.fail "boom1".toList) (fun _ =>
          .exec "k".toList (.fail "boom2".toList) (fun v2 =>
            .ret v2)))
      = runProg none []
          { store := { live := true, tasks := [] },
            cache := [("k".toList, JsVal.num 7)] }
          (.ret (visVal (.num 7))) := by
  refine ⟨⟨by decide, by decide⟩, ?_⟩
  exact c10_duplicate_keys none [] "k".toList _ (.num 7) (by decide) (by decide)
    (.fail "boom1".toList) (.fail "boom2".toList) (fun _ v2 => .ret v2)

-- C3 ------------------------------------------------------------------

/-- C3, counterexample.  The claim ties the enqueued continuation to
the parent obtained by stripping the last colon-separated segment, with
no taskId only when the path has a single segment.  The code instead
enqueues no taskId whenever the stripped parent is the EMPTY string
(worker.ts:188-189 `parentTaskId || undefined`).  A function with id
":x" produces the full path ":x", which has two segments ("" and "x"):
the claim therefore demands a continuation bearing the parent "" while
the code enqueues a continuation with no taskId at all. -/
theorem c3_counterexample :
    (executeStep (some ":x".toList) [] ":x".toList
        (fun s => { out := .ok (some (.num 1)), st := s, evs := [] })
        { store := { live := true, tasks := [] }, cache := [] }).evs
      = [.invoke ":x".toList, .commit ":x".toList (.num 1), .enqueue none]
    ∧ (splitColon ":x".toList).length ≠ 1
    ∧ claimParent ":x".toList = some []
    ∧ some ([] : Str) ≠ (none : Option Str) := by
  exact ⟨by decide, by decide, by decide, by decide⟩

/-- C3, amended.  For every entered step whose callback resolves with
value v, the engine commits the sentinel-substituted value under the
full path, then enqueues exactly one continuation bearing the parent
path obtained by stripping the last colon-separated segment - or no
taskId when that stripped parent is the empty string, in particular
when the path has a single segment - and then rejects with the
Interrupt: the trace lists the commit strictly before the enqueue, the
callback itself contributed no enqueues, and the Interrupt is the final
settlement (worker.ts:180-198). -/
theorem c3_amended (ctx : Option Str) (path key : Str) (body : Prog)
    (k : JVal → Prog) (s s1 : EngSt) (v : JVal) (bevs : List Ev)
    (henter : enterCheck ctx (joinTask path key) = true)
    (hbody : runProg ctx (joinTask path key) s body
      = { out := .ok v, st := s1, evs := bevs }) :
    runProg ctx path s (.exec key body k)
      = { out := .interrupt (.committed (joinTask path key)
            (parentTask (joinTask path key))),
          st := commitCached s1 (joinTask path key) (commitVal v),
          evs := .invoke (joinTask path key) :: bevs
            ++ [.commit (joinTask path key) (commitVal v),
                .enqueue (parentTask (joinTask path key))] }
    ∧ collectEnqs bevs = [] := by
  constructor
  · rw [runProg_exec_eq]
    unfold executeStep
    rw [if_pos henter]
    dsimp only
    rw [hbody]
    rw [show invokeMark (joinTask path key)
        { out := .ok v, st := s1, evs := bevs }
      = { out := .ok v, st := s1,
          evs := .invoke (joinTask path key) :: bevs } from rfl]
    rw [commitPhase, strictBind]
  · have : collectEnqs (runProg ctx (joinTask path key) s body).evs = [] := by
      apply runProg_settled_no_enqs
      rw [hbody]
      intro rz hcon
      cases hcon
    rw [hbody] at this
    exact this

/-- C3 witness: a concrete entered two-segment step commits, enqueues
its one-segment parent, and interrupts. -/
theorem c3_amended_witness :
    (enterCheck (some "f:a".toList) (joinTask "f".toList "a".toList) = true
      ∧ runProg (some "f:a".toList) (joinTask "f".toList "a".toList)
          { store := { live := true, tasks := [] }, cache := [] }
          (.ret (some (.num 2)))
        = { out := .ok (some (.num 2)),
            st := { store := { live := true, tasks := [] }, cache := [] },
            evs := [] })
    ∧ runProg (some "f:a".toList) "f".toList
        { store := { live := true, tasks := [] }, cache := [] }
        (.exec "a".toList (.ret (some (.num 2))) (fun v => .ret v))
      = { out := .interrupt (.committed (joinTask "f".toList "a".toList)
            (parentTask (joinTask "f".toList "a".toList))),
          st := commitCached
            { store := { live := true, tasks := [] }, cache := [] }
            (joinTask "f".toList "a".toList) (commitVal (some (.num 2))),
          evs := .invoke (joinTask "f".toList "a".toList) :: []
            ++ [.commit (joinTask "f".toList "a".toList)
                  (commitVal (some (.num 2))),
                .enqueue (parentTask (joinTask "f".toList "a".toList))] } := by
  refine ⟨⟨by decide, by decide⟩, ?_⟩
  exact (c3_amended (some "f:a".toList) "f".toList "a".toList
    (.ret (some (.num 2))) (fun v => .ret v) _ _ _ []
    (by decide) (by decide)).1

-- C4 ------------------------------------------------------------------

/-- C4.  For every execute call on a step that is not entered and whose
full path has no cached committed value: when the store reports the
path in progress the engine interrupts with the in-progress reason,
leaving the state untouched, producing no events (in particular no
callback invocation and no beginExecutionTask); otherwise it begins the
task, enqueues exactly one continuation bearing the full path, and
interrupts with the triggered reason, again never invoking the callback
(the result does not depend on runBody) (worker.ts:200-229). -/
theorem c4_not_started (ctx : Option Str) (path key : Str)
    (runBody : EngSt → Res) (s : EngSt)
    (hne : enterCheck ctx (joinTask path key) = false)
    (hc : cachedGet s (joinTask path key) = none) :
    executeStep ctx path key runBody s
      = if storeTaskInProg s.store (joinTask path key) then
          { out := .interrupt (.inProgressSkip (joinTask path key)),
            st := s, evs := [] }
        else
          { out := .interrupt (.triggered (joinTask path key)),
            st := { s with store := storeBeginTask s.store (joinTask path key) },
            evs := [.beginTask (joinTask path key),
                    .enqueue (some (joinTask path key))] } := by
  unfold executeStep shortcutStep
  rw [if_neg (by simp [hne]), hc]

/-- C4 witness: a concrete not-entered, not-cached, not-in-progress
call takes the begin-and-trigger branch. -/
theorem c4_not_started_witness :
    executeStep none [] "a".toList
        (fun s => { out := .ok none, st := s, evs := [] })
        { store := { live := true, tasks := [] }, cache := [] }
      = if storeTaskInProg (ExecStore.mk true []) (joinTask [] "a".toList) then
          { out := .interrupt (.inProgressSkip (joinTask [] "a".toList)),
            st := { store := { live := true, tasks := [] }, cache := [] },
            evs := [] }
        else
          { out := .interrupt (.triggered (joinTask [] "a".toList)),
            st := { store := storeBeginTask { live := true, tasks := [] }
                      (joinTask [] "a".toList), cache := [] },
            evs := [.beginTask (joinTask [] "a".toList),
                    .enqueue (some (joinTask [] "a".toList))] } :=
  c4_not_started none [] "a".toList _ _ (by decide) (by decide)

-- C8 ------------------------------------------------------------------

/-- C8.  When an entered step resolves with no value, the engine
commits the literal sentinel string under the full path (readable back
from cache and store), the trace records the commit of the sentinel,
and every later replay of the call on a state that still holds the
sentinel for this path and is not targeted at it is a pure cache hit:
it resolves with no value (not the sentinel string), leaves the state
unchanged and produces no events, so the callback is not invoked
(worker.ts:180-186, 200-211). -/
theorem c8_sentinel_roundtrip (ctx : Option Str) (path key : Str)
    (runBody : EngSt → Res) (s s1 : EngSt) (bevs : List Ev)
    (henter : enterCheck ctx (joinTask path key) = true)
    (hbody : runBody s = { out := .ok none, st := s1, evs := bevs }) :
    cachedGet (executeStep ctx path key runBody s).st (joinTask path key)
        = some EMPTY_EXECUTION_RESULT
    ∧ (executeStep ctx path key runBody s).evs
        = .invoke (joinTask path key) :: bevs
          ++ [.commit (joinTask path key) EMPTY_EXECUTION_RESULT,
              .enqueue (parentTask (joinTask path key))]
    ∧ ∀ (s2 : EngSt) (ctx2 : Option Str) (rb2 : EngSt → Res),
        cachedGet s2 (joinTask path key) = some EMPTY_EXECUTION_RESULT →
        enterCheck ctx2 (joinTask path key) = false →
        executeStep ctx2 path key rb2 s2 = { out := .ok none, st := s2, evs := [] } := by
  refine ⟨?_, ?_, ?_⟩
  · unfold executeStep
    rw [if_pos henter]
    simp [invokeMark, hbody, commitPhase, commitVal, cachedGet_commit_self]
  · unfold executeStep
    rw [if_pos henter]
    simp [invokeMark, hbody, commitPhase, commitVal]
  · intro s2 ctx2 rb2 hc2 hne2
    unfold executeStep shortcutStep
    rw [if_neg (by simp [hne2]), hc2]
    simp [visVal]

/-- C8 witness: concrete entered call with an undefined result, and a
concrete later replay of the resulting state. -/
theorem c8_sentinel_roundtrip_witness :
    (enterCheck (some "f".toList) (joinTask [] "f".toList) = true
      ∧ (fun (s : EngSt) => ({ out := .ok none, st := s, evs := [] } : Res))
          { store := { live := true, tasks := [] }, cache := [] }
        = { out := .ok none,
            st := { store := { live := true, tasks := [] }, cache := [] },
            evs := [] })
    ∧ cachedGet (executeStep (some "f".toList) [] "f".toList
        (fun s => { out := .ok none, st := s, evs := [] })
        { store := { live := true, tasks := [] }, cache := [] }).st
          (joinTask [] "f".toList) = some EMPTY_EXECUTION_RESULT := by
  refine ⟨⟨by decide, rfl⟩, ?_⟩
  exact (c8_sentinel_roundtrip (some "f".toList) [] "f".toList _ _ _ _
    (by decide) rfl).1

-- C9 ------------------------------------------------------------------

/-- C9, counterexample.  The redis store commit (store.ts:44-51) runs
`hdel` on the transactions hash and `hset` on the results hash under
`Promise.all`, i.e. concurrently.  For a previously begun task, the
interleaving in which the `hdel` lands first has an intermediate state
(one of the two admissible mid-states of the commit) in which an
observer sees the task neither in progress nor committed. -/
theorem c9_counterexample :
    redisTaskInProg { trans := [("t".toList, "true".toList)], results := [] }
        "t".toList = true
    ∧ redisHdelTrans { trans := [("t".toList, "true".toList)], results := [] }
        "t".toList
      ∈ redisCommitMidStates
          { trans := [("t".toList, "true".toList)], results := [] }
          "t".toList (.num 1)
    ∧ redisTaskInProg
        (redisHdelTrans { trans := [("t".toList, "true".toList)], results := [] }
          "t".toList) "t".toList = false
    ∧ redisResultVisible
        (redisHdelTrans { trans := [("t".toList, "true".toList)], results := [] }
          "t".toList) "t".toList = false := by
  exact ⟨by decide, by decide, by decide, by decide⟩

/-- C9, amended.  The memory store commits in one atomic state change,
so a begun task is observed in progress before it and committed after
it; the filesystem store writes the result file strictly before
unlinking the transaction file, so every state an observer can see
during or after the commit of a begun task shows the task in progress
or committed.  The redis store does not satisfy the claim (see the
counterexample): its marker delete and result write race under
`Promise.all`. -/
theorem c9_amended (full : Str) (v : JsVal) :
    (∀ s : ExecStore, s.live = true →
      assocGet full s.tasks = some .inProgress →
      (storeTaskInProg s full = true ∨ storeGetResult s full ≠ none)
      ∧ (storeTaskInProg (storeCommitResult s full v) full = true
          ∨ storeGetResult (storeCommitResult s full v) full ≠ none))
    ∧ (∀ st : FsSt, fsTaskInProg st full = true →
        ∀ st2 ∈ fsCommitStates st full v,
          fsTaskInProg st2 full = true ∨ fsResultVisible st2 full = true) := by
  constructor
  · intro s hlive hbegun
    constructor
    · left
      simp [storeTaskInProg, hlive, hbegun]
    · right
      simp [storeGetResult, storeCommitResult, hlive, assocGet_set_self]
  · intro st hbegun st2 hmem
    simp only [fsCommitStates, List.mem_cons, List.not_mem_nil, or_false] at hmem
    rcases hmem with h | h | h
    · left; rw [h]; exact hbegun
    · left; rw [h]; exact hbegun
    · right
      rw [h]
      simp [fsResultVisible, fsUnlinkTrans, fsWriteResult, assocGet_set_self]

/-- C9 witness: the amended atomicity facts evaluated on a concrete
begun task for the memory and filesystem stores. -/
theorem c9_amended_witness :
    (storeTaskInProg { live := true, tasks := [("t".toList, .inProgress)] }
        "t".toList = true
      ∨ storeGetResult { live := true, tasks := [("t".toList, .inProgress)] }
          "t".toList ≠ none)
    ∧ (storeTaskInProg (storeCommitResult
          { live := true, tasks := [("t".toList, .inProgress)] }
          "t".toList (.num 1)) "t".toList = true
      ∨ storeGetResult (storeCommitResult
          { live := true, tasks := [("t".toList, .inProgress)] }
          "t".toList (.num 1)) "t".toList ≠ none)
    ∧ (∀ st2 ∈ fsCommitStates { transFiles := ["t".toList], resultFiles := [] }
          "t".toList (.num 1),
        fsTaskInProg st2 "t".toList = true
        ∨ fsResultVisible st2 "t".toList = true) := by
  obtain ⟨h1, h2⟩ := c9_amended "t".toList (.num 1)
  exact ⟨(h1 _ (by decide) (by decide)).1, (h1 _ (by decide) (by decide)).2,
    h2 _ (by decide)⟩

-- C6 ------------------------------------------------------------------

/-- C6.  The claim (and spec section 7) say a configured onError hook
is invoked when an uncaught handler error is observed at the mount
level.  The path-dialect worker of packages/idioteque/src/worker.ts
never calls `onError`: the option is only destructured (line 23),
replaced by `configure` (line 238) and returned by `getOptions` (line
248).  Evaluating the code at the failing input - one matching function
whose entered handler throws "boom" - shows the error is observed at
the mount level (mount.execute rejects with it) while the trace holds
zero onError invocations.  The predecessor flat-dialect worker
(packages/core/src/worker.ts:228) does invoke `onError` here, and the
package README documents `onError` as the global error handler, so the
missing call contradicts the documented intent. -/
theorem c6_onerror_never_called :
    mountExecute .isolated [⟨"f".toList, true, .fail "boom".toList⟩]
        (some (some "f".toList)) { live := true, tasks := [] } 3
      = some { out := .error "boom".toList,
               st := { store := { live := true, tasks := [] }, cache := [] },
               evs := [.invoke "f".toList],
               pubs := [] }
    ∧ ((mountExecute .isolated [⟨"f".toList, true, .fail "boom".toList⟩]
          (some (some "f".toList)) { live := true, tasks := [] } 3).map
        (fun m => onErrObserved m.evs)) = some [] := by
  exact ⟨by decide, by decide⟩

-- C7 ------------------------------------------------------------------

/-- C7, counterexample.  Two matching functions: the first suspends
with an Interrupt (it begins its first task), the second rejects with
the uncaught handler error "boom".  worker.ts:79-84 collects ALL
rejections - Interrupts included - and rethrows only the first one, so
the dispatch throws the Interrupt, the loop (worker.ts:338-343)
swallows it as a suspension, and mount.execute resolves normally: the
uncaught handler error is silently discarded, contradicting the claim
that mount.execute rejects with a non-Interrupt error. -/
theorem c7_counterexample :
    (settleAll (some "a2".toList)
        { store := { live := true, tasks := [("a2".toList, .inProgress)] },
          cache := [] }
        [⟨"a1".toList, true, .ret none⟩,
         ⟨"a2".toList, true, .fail "boom".toList⟩]).1
      = [.interrupt (.triggered "a1".toList), .error "boom".toList]
    ∧ (mountExecute .isolated
        [⟨"a1".toList, true, .ret none⟩,
         ⟨"a2".toList, true, .fail "boom".toList⟩]
        (some (some "a2".toList))
        { live := true, tasks := [("a2".toList, .inProgress)] } 3).map MRes.out
      = some (.ok ()) := by
  exact ⟨by decide, by decide⟩

/-- C7, amended.  mount.execute rethrows the FIRST rejection among the
functions in registration order (worker.ts:79-84); only when that first
rejection is a non-Interrupt handler error does mount.execute reject
with it.  A handler error preceded in registration order by an
Interrupt rejection is discarded (see the counterexample). -/
theorem c7_amended (mode : Mode) (funcs : List Func) (t : Option Str)
    (q : List (Option Str)) (s : EngSt) (fuel : Nat) (e : Str)
    (restRej : List (Outcome Unit))
    (hlive : s.store.live = true)
    (hfirst : rejections (settleAll t s funcs).1 = .error e :: restRej) :
    (mountLoop mode funcs (fuel + 1) s (t :: q)).map MRes.out
      = some (.error e) := by
  have hd : dispatchToFunctions funcs t s
      = (.error e, (settleAll t s funcs).2.1, (settleAll t s funcs).2.2) := by
    unfold dispatchToFunctions
    rw [if_pos hlive]
    rcases hset : settleAll t s funcs with ⟨os, s2, evs⟩
    rw [hset] at hfirst
    simp only at hfirst
    simp [hfirst]
  rw [mountLoop, hd]
  simp

/-- C7 witness: a single entered function that throws makes
mount.execute reject with that error. -/
theorem c7_amended_witness :
    (({ store := { live := true, tasks := [] }, cache := [] } : EngSt).store.live
        = true
      ∧ rejections (settleAll (some "a2".toList)
          { store := { live := true, tasks := [] }, cache := [] }
          [⟨"a2".toList, true, .fail "boom".toList⟩]).1
        = .error "boom".toList :: [])
    ∧ (mountLoop .isolated [⟨"a2".toList, true, .fail "boom".toList⟩] 1
        { store := { live := true, tasks := [] }, cache := [] }
        [some "a2".toList]).map MRes.out
      = some (.error "boom".toList) := by
  refine ⟨⟨by decide, by decide⟩, ?_⟩
  exact c7_amended .isolated [⟨"a2".toList, true, .fail "boom".toList⟩]
    (some "a2".toList) [] _ 0 "boom".toList [] (by decide) (by decide)

-- C5 machinery: string-prefix and path facts ---------------------------

theorem isPrefixOf_self (l : Str) : l.isPrefixOf l = true :=
  List.isPrefixOf_iff_prefix.mpr (List.prefix_refl l)

theorem isPrefixOf_append_self (l t : Str) : l.isPrefixOf (l ++ t) = true :=
  List.isPrefixOf_iff_prefix.mpr (List.prefix_append l t)

theorem isPrefixOf_longer (l : Str) (c : Char) (m : Str) :
    (l ++ c :: m).isPrefixOf l = false := by
  rw [Bool.eq_false_iff]
  intro h
  have hle := (List.isPrefixOf_iff_prefix.mp h).length_le
  simp at hle

theorem isPrefixOf_append_cancel (l a b : Str) :
    (l ++ a).isPrefixOf (l ++ b) = a.isPrefixOf b := by
  rw [Bool.eq_iff_iff, List.isPrefixOf_iff_prefix, List.isPrefixOf_iff_prefix]
  exact List.prefix_append_right_inj l

theorem append_cons_ne (l : Str) (c : Char) (m : Str) : l ++ c :: m ≠ l := by
  intro h
  have hlen := congrArg List.length h
  simp at hlen

theorem append_cons_inj (l : Str) (c : Char) (a b : Str)
    (h : l ++ c :: a = l ++ c :: b) : a = b := by
  have h2 := List.append_cancel_left h
  exact List.tail_eq_of_cons_eq h2

theorem joinTask_nil (key : Str) : joinTask [] key = key := rfl

theorem joinTask_noColon (fid key : Str) (h1 : fid ≠ []) (h2 : ':' ∉ fid) :
    joinTask fid key = fid ++ ':' :: key := by
  cases fid with
  | nil => exact absurd rfl h1
  | cons c rest =>
    have hc : c ≠ ':' := fun e => h2 (by rw [e]; exact List.mem_cons_self _ _)
    unfold joinTask stripLead
    rw [List.cons_append]
    split
    · rename_i heq
      exact absurd (List.head_eq_of_cons_eq heq.symm).symm hc
    · rfl

theorem splitColon_noColon (a : Str) (h : ':' ∉ a) : splitColon a = [a] := by
  induction a with
  | nil => rfl
  | cons c rest ih =>
    have hc : c ≠ ':' := fun e => h (by rw [e]; exact List.mem_cons_self _ _)
    have hrest : ':' ∉ rest := fun hm => h (List.mem_cons_of_mem c hm)
    unfold splitColon
    rw [if_neg hc, ih hrest]

theorem splitColon_append (a b : Str) (h : ':' ∉ a) :
    splitColon (a ++ ':' :: b) = a :: splitColon b := by
  induction a with
  | nil =>
    show splitColon (':' :: b) = [] :: splitColon b
    rw [splitColon]
    rw [if_pos rfl]
  | cons c rest ih =>
    have hc : c ≠ ':' := fun e => h (by rw [e]; exact List.mem_cons_self _ _)
    have hrest : ':' ∉ rest := fun hm => h (List.mem_cons_of_mem c hm)
    rw [List.cons_append]
    rw [splitColon]
    rw [if_neg hc, ih hrest]

theorem parentTask_noColon (fid : Str) (h : ':' ∉ fid) :
    parentTask fid = none := by
  unfold parentTask
  rw [splitColon_noColon fid h]
  rfl

theorem parentTask_step (fid k : Str) (hf : ':' ∉ fid) (hk : ':' ∉ k)
    (hne : fid ≠ []) :
    parentTask (fid ++ ':' :: k) = some fid := by
  unfold parentTask
  rw [splitColon_append fid k hf, splitColon_noColon k hk]
  show (if joinColon [fid] = [] then none else some (joinColon [fid]))
    = some fid
  rw [show joinColon [fid] = fid from rfl, if_neg hne]

theorem cachedGet_none (s : EngSt) (full : Str)
    (h1 : assocGet full s.cache = none)
    (h2 : assocGet full s.store.tasks = none) :
    cachedGet s full = none := by
  unfold cachedGet
  rw [h1]
  dsimp only
  unfold storeGetResult
  rw [h2]
  dsimp only
  split <;> rfl

theorem storeTaskInProg_none (st : ExecStore) (full : Str)
    (h : assocGet full st.tasks = none) :
    storeTaskInProg st full = false := by
  unfold storeTaskInProg
  rw [h]
  dsimp only
  split <;> rfl

-- C5 machinery: replay of committed steps ------------------------------

theorem executeStep_cache_hit (ctx : Option Str) (path key : Str)
    (rb : EngSt → Res) (s : EngSt) (w : JsVal)
    (hne : enterCheck ctx (joinTask path key) = false)
    (hc : cachedGet s (joinTask path key) = some w) :
    executeStep ctx path key rb s
      = { out := .ok (visVal w), st := s, evs := [] } := by
  unfold executeStep shortcutStep
  rw [if_neg (by simp [hne]), hc]

theorem seq_replay (fret : List JVal → JVal) (t : Option Str) (fid : Str)
    (dv : List ((Str × StepFn) × JsVal)) (todo : List (Str × StepFn))
    (acc : List JVal) (s : EngSt)
    (hno : ∀ p ∈ dv, enterCheck t (joinTask fid p.1.1) = false)
    (hcache : ∀ p ∈ dv, cachedGet s (joinTask fid p.1.1) = some p.2) :
    runProg t fid s (seqProg fret (dv.map Prod.fst ++ todo) acc)
      = runProg t fid s
          (seqProg fret todo (acc ++ dv.map (fun p => visVal p.2))) := by
  induction dv generalizing acc with
  | nil => simp
  | cons hd tl ih =>
    obtain ⟨⟨key, f⟩, w⟩ := hd
    rw [List.map_cons, List.cons_append]
    rw [show seqProg fret ((key, f) :: (tl.map Prod.fst ++ todo)) acc
      = .exec key (.ret (f acc))
          (fun v => seqProg fret (tl.map Prod.fst ++ todo) (acc ++ [v]))
      from rfl]
    rw [runProg_exec_eq,
      executeStep_cache_hit t fid key _ s w
        (hno ⟨⟨key, f⟩, w⟩ (List.mem_cons_self _ _))
        (hcache ⟨⟨key, f⟩, w⟩ (List.mem_cons_self _ _)),
      strictBind]
    simp only [List.nil_append]
    rw [ih (acc ++ [visVal w]) (fun p hp => hno p (List.mem_cons_of_mem _ hp))
        (fun p hp => hcache p (List.mem_cons_of_mem _ hp))]
    rw [List.map_cons, show acc ++ [visVal w] ++ List.map (fun p => visVal p.2) tl
      = acc ++ (visVal w :: List.map (fun p => visVal p.2) tl) by
        rw [List.append_assoc]; rfl]

-- C5 machinery: single-function dispatch steps -------------------------

theorem isPrefixOf_false_of_not (a b : Str) (h : ¬ a <+: b) :
    a.isPrefixOf b = false := by
  rw [Bool.eq_false_iff]
  intro hb
  exact h (List.isPrefixOf_iff_prefix.mp hb)

theorem isPrefixOf_cons_cancel (l : Str) (c : Char) (a b : Str) :
    (l ++ c :: a).isPrefixOf (l ++ c :: b) = a.isPrefixOf b := by
  rw [show l ++ c :: a = (l ++ [c]) ++ a by simp,
      show l ++ c :: b = (l ++ [c]) ++ b by simp,
      isPrefixOf_append_cancel]

theorem execTop_entered (t : Option Str) (fid : Str) (prog : Prog)
    (s : EngSt) (r : Res)
    (hent : enterCheck t fid = true)
    (hrun : runProg t fid s prog = r) :
    execTop t ⟨fid, true, prog⟩ s = commitPhase fid (invokeMark fid r) := by
  unfold execTop executeStep
  simp only [joinTask_nil]
  rw [if_pos hent]
  rw [hrun]

theorem execTop_none_hit (fid : Str) (prog : Prog) (s : EngSt) (w : JsVal)
    (hc : cachedGet s fid = some w) :
    execTop none ⟨fid, true, prog⟩ s
      = { out := .ok (visVal w), st := s, evs := [] } := by
  unfold execTop executeStep shortcutStep
  simp only [joinTask_nil]
  rw [if_neg (by simp [enterCheck]), hc]

theorem settleAll_single (t : Option Str) (f : Func) (s : EngSt) :
    settleAll t s [f]
      = ([(execTop t f s).out], (execTop t f s).st, (execTop t f s).evs) := by
  simp [settleAll]

theorem dispatch_single_interrupt (t : Option Str) (f : Func) (s : EngSt)
    (rz : IntReason) (s2 : EngSt) (evs : List Ev)
    (hlive : s.store.live = true)
    (hexec : execTop t f s = { out := .interrupt rz, st := s2, evs := evs }) :
    dispatchToFunctions [f] t s = (.interrupt rz, s2, evs) := by
  unfold dispatchToFunctions
  rw [if_pos hlive, settleAll_single, hexec]
  rfl

theorem dispatch_single_ok (t : Option Str) (f : Func) (s : EngSt)
    (v : JVal) (s2 : EngSt) (evs : List Ev)
    (hlive : s.store.live = true)
    (hexec : execTop t f s = { out := .ok v, st := s2, evs := evs }) :
    dispatchToFunctions [f] t s
      = (.ok (), { s2 with store := storeDispose s2.store }, evs) := by
  unfold dispatchToFunctions
  rw [if_pos hlive, settleAll_single, hexec]
  rfl

theorem mountLoop_step_int (funcs : List Func) (fuel : Nat) (s : EngSt)
    (t : Option Str) (rest : List (Option Str)) (rz : IntReason)
    (s2 : EngSt) (evs : List Ev)
    (hd : dispatchToFunctions funcs t s = (.interrupt rz, s2, evs)) :
    mountLoop .untilError funcs (fuel + 1) s (t :: rest)
      = (mountLoop .untilError funcs fuel s2 (rest ++ collectEnqs evs)).map
          (fun m => { out := m.out, st := m.st, evs := evs ++ m.evs,
                      pubs := m.pubs }) := by
  rw [mountLoop, hd]
  dsimp only
  cases hm : mountLoop .untilError funcs fuel s2 (rest ++ collectEnqs evs) <;>
    simp [hm]

theorem mountLoop_step_ok (funcs : List Func) (fuel : Nat) (s : EngSt)
    (t : Option Str) (rest : List (Option Str))
    (s2 : EngSt) (evs : List Ev)
    (hd : dispatchToFunctions funcs t s = (.ok (), s2, evs)) :
    mountLoop .untilError funcs (fuel + 1) s (t :: rest)
      = (mountLoop .untilError funcs fuel s2 (rest ++ collectEnqs evs)).map
          (fun m => { out := m.out, st := m.st, evs := evs ++ m.evs,
                      pubs := m.pubs }) := by
  rw [mountLoop, hd]
  dsimp only
  cases hm : mountLoop .untilError funcs fuel s2 (rest ++ collectEnqs evs) <;>
    simp [hm]

-- C5 machinery: the four pop shapes of an UNTIL_ERROR run --------------

theorem c5_pop_trigger (fid : Str) (fret : List JVal → JVal)
    (dv : List ((Str × StepFn) × JsVal)) (key : Str) (f : StepFn)
    (rest : List (Str × StepFn)) (s : EngSt)
    (hfidne : fid ≠ []) (hfidc : ':' ∉ fid)
    (hlive : s.store.live = true)
    (hdv : ∀ p ∈ dv, cachedGet s (fid ++ ':' :: p.1.1) = some p.2)
    (hkc : assocGet (fid ++ ':' :: key) s.cache = none)
    (hkt : assocGet (fid ++ ':' :: key) s.store.tasks = none) :
    dispatchToFunctions
        [⟨fid, true, seqProg fret (dv.map Prod.fst ++ (key, f) :: rest) []⟩]
        (some fid) s
      = (.interrupt (.triggered (fid ++ ':' :: key)),
         { s with store := storeBeginTask s.store (fid ++ ':' :: key) },
         [.invoke fid, .beginTask (fid ++ ':' :: key),
          .enqueue (some (fid ++ ':' :: key))]) := by
  have hjoin : ∀ k2 : Str, joinTask fid k2 = fid ++ ':' :: k2 :=
    fun k2 => joinTask_noColon fid k2 hfidne hfidc
  have hrun : runProg (some fid) fid s
      (seqProg fret (dv.map Prod.fst ++ (key, f) :: rest) [])
      = { out := .interrupt (.triggered (fid ++ ':' :: key)),
          st := { s with store := storeBeginTask s.store (fid ++ ':' :: key) },
          evs := [.beginTask (fid ++ ':' :: key),
                  .enqueue (some (fid ++ ':' :: key))] } := by
    rw [seq_replay fret (some fid) fid dv ((key, f) :: rest) [] s
      (fun p _ => by
        rw [hjoin]
        show (fid ++ ':' :: p.1.1).isPrefixOf fid = false
        exact isPrefixOf_longer fid ':' p.1.1)
      (fun p hp => by rw [hjoin]; exact hdv p hp)]
    rw [show seqProg fret ((key, f) :: rest)
        ([] ++ dv.map (fun p => visVal p.2))
      = Prog.exec key (.ret (f ([] ++ dv.map (fun p => visVal p.2))))
          (fun v => seqProg fret rest
            (([] ++ dv.map (fun p => visVal p.2)) ++ [v])) from rfl]
    rw [runProg_exec_eq]
    have hstep : executeStep (some fid) fid key
        (fun s2 => runProg (some fid) (joinTask fid key) s2
          (.ret (f ([] ++ dv.map (fun p => visVal p.2))))) s
        = { out := .interrupt (.triggered (fid ++ ':' :: key)),
            st := { s with store := storeBeginTask s.store (fid ++ ':' :: key) },
            evs := [.beginTask (fid ++ ':' :: key),
                    .enqueue (some (fid ++ ':' :: key))] } := by
      unfold executeStep shortcutStep
      rw [hjoin key]
      rw [if_neg (by
        show ¬ ((fid ++ ':' :: key).isPrefixOf fid = true)
        rw [isPrefixOf_longer fid ':' key]
        simp)]
      rw [cachedGet_none s _ hkc hkt,
          storeTaskInProg_none s.store _ hkt]
      rfl
    rw [hstep, strictBind]
  have hex : execTop (some fid)
      ⟨fid, true, seqProg fret (dv.map Prod.fst ++ (key, f) :: rest) []⟩ s
      = { out := .interrupt (.triggered (fid ++ ':' :: key)),
          st := { s with store := storeBeginTask s.store (fid ++ ':' :: key) },
          evs := [.invoke fid, .beginTask (fid ++ ':' :: key),
                  .enqueue (some (fid ++ ':' :: key))] } := by
    rw [execTop_entered (some fid) fid _ s _
      (show fid.isPrefixOf fid = true from isPrefixOf_self fid) hrun]
    rfl
  exact dispatch_single_interrupt _ _ _ _ _ _ hlive hex

theorem c5_pop_commit (fid : Str) (fret : List JVal → JVal)
    (dv : List ((Str × StepFn) × JsVal)) (key : Str) (f : StepFn)
    (rest : List (Str × StepFn)) (s : EngSt)
    (hfidne : fid ≠ []) (hfidc : ':' ∉ fid) (hkeyc : ':' ∉ key)
    (hlive : s.store.live = true)
    (hdv : ∀ p ∈ dv, cachedGet s (fid ++ ':' :: p.1.1) = some p.2)
    (hnd : ∀ p ∈ dv, ¬ p.1.1 <+: key) :
    dispatchToFunctions
        [⟨fid, true, seqProg fret (dv.map Prod.fst ++ (key, f) :: rest) []⟩]
        (some (fid ++ ':' :: key)) s
      = (.interrupt (.committed (fid ++ ':' :: key) (some fid)),
         commitCached s (fid ++ ':' :: key)
           (commitVal (f (dv.map (fun p => visVal p.2)))),
         [.invoke fid, .invoke (fid ++ ':' :: key),
          .commit (fid ++ ':' :: key)
            (commitVal (f (dv.map (fun p => visVal p.2)))),
          .enqueue (some fid)]) := by
  have hjoin : ∀ k2 : Str, joinTask fid k2 = fid ++ ':' :: k2 :=
    fun k2 => joinTask_noColon fid k2 hfidne hfidc
  have hrun : runProg (some (fid ++ ':' :: key)) fid s
      (seqProg fret (dv.map Prod.fst ++ (key, f) :: rest) [])
      = { out := .interrupt (.committed (fid ++ ':' :: key) (some fid)),
          st := commitCached s (fid ++ ':' :: key)
            (commitVal (f (dv.map (fun p => visVal p.2)))),
          evs := [.invoke (fid ++ ':' :: key),
                  .commit (fid ++ ':' :: key)
                    (commitVal (f (dv.map (fun p => visVal p.2)))),
                  .enqueue (some fid)] } := by
    rw [seq_replay fret (some (fid ++ ':' :: key)) fid dv ((key, f) :: rest) [] s
      (fun p hp => by
        rw [hjoin]
        show (fid ++ ':' :: p.1.1).isPrefixOf (fid ++ ':' :: key) = false
        rw [isPrefixOf_cons_cancel]
        exact isPrefixOf_false_of_not _ _ (hnd p hp))
      (fun p hp => by rw [hjoin]; exact hdv p hp)]
    rw [show seqProg fret ((key, f) :: rest)
        ([] ++ dv.map (fun p => visVal p.2))
      = Prog.exec key (.ret (f ([] ++ dv.map (fun p => visVal p.2))))
          (fun v => seqProg fret rest
            (([] ++ dv.map (fun p => visVal p.2)) ++ [v])) from rfl]
    rw [runProg_exec_eq]
    have hstep : executeStep (some (fid ++ ':' :: key)) fid key
        (fun s2 => runProg (some (fid ++ ':' :: key)) (joinTask fid key) s2
          (.ret (f ([] ++ dv.map (fun p => visVal p.2))))) s
        = { out := .interrupt (.committed (fid ++ ':' :: key) (some fid)),
            st := commitCached s (fid ++ ':' :: key)
              (commitVal (f (dv.map (fun p => visVal p.2)))),
            evs := [.invoke (fid ++ ':' :: key),
                    .commit (fid ++ ':' :: key)
                      (commitVal (f (dv.map (fun p => visVal p.2)))),
                    .enqueue (some fid)] } := by
      unfold executeStep
      rw [hjoin key]
      simp only [enterCheck]
      rw [if_pos (isPrefixOf_self (fid ++ ':' :: key))]
      have hret : runProg (some (fid ++ ':' :: key)) (fid ++ ':' :: key) s
          (.ret (f ([] ++ dv.map (fun p => visVal p.2))))
          = { out := .ok (f ([] ++ dv.map (fun p => visVal p.2))), st := s,
              evs := [] } := by
        rw [runProg]
      rw [hret]
      rw [show invokeMark (fid ++ ':' :: key)
          { out := .ok (f ([] ++ dv.map (fun p => visVal p.2))), st := s,
            evs := [] }
        = { out := .ok (f ([] ++ dv.map (fun p => visVal p.2))), st := s,
            evs := [.invoke (fid ++ ':' :: key)] } from rfl]
      rw [commitPhase]
      rw [parentTask_step fid key hfidc hkeyc hfidne]
      simp only [List.nil_append]
      rfl
    rw [hstep, strictBind]
  have hex : execTop (some (fid ++ ':' :: key))
      ⟨fid, true, seqProg fret (dv.map Prod.fst ++ (key, f) :: rest) []⟩ s
      = { out := .interrupt (.committed (fid ++ ':' :: key) (some fid)),
          st := commitCached s (fid ++ ':' :: key)
            (commitVal (f (dv.map (fun p => visVal p.2)))),
          evs := [.invoke fid, .invoke (fid ++ ':' :: key),
                  .commit (fid ++ ':' :: key)
                    (commitVal (f (dv.map (fun p => visVal p.2)))),
                  .enqueue (some fid)] } := by
    rw [execTop_entered (some (fid ++ ':' :: key)) fid _ s _
      (show fid.isPrefixOf (fid ++ ':' :: key) = true
        from isPrefixOf_append_self fid (':' :: key)) hrun]
    rfl
  exact dispatch_single_interrupt _ _ _ _ _ _ hlive hex

theorem c5_pop_final (fid : Str) (fret : List JVal → JVal)
    (dv : List ((Str × StepFn) × JsVal)) (s : EngSt)
    (hfidne : fid ≠ []) (hfidc : ':' ∉ fid)
    (hlive : s.store.live = true)
    (hdv : ∀ p ∈ dv, cachedGet s (fid ++ ':' :: p.1.1) = some p.2) :
    dispatchToFunctions
        [⟨fid, true, seqProg fret (dv.map Prod.fst ++ []) []⟩]
        (some fid) s
      = (.interrupt (.committed fid none),
         commitCached s fid (commitVal (fret (dv.map (fun p => visVal p.2)))),
         [.invoke fid,
          .commit fid (commitVal (fret (dv.map (fun p => visVal p.2)))),
          .enqueue none]) := by
  have hjoin : ∀ k2 : Str, joinTask fid k2 = fid ++ ':' :: k2 :=
    fun k2 => joinTask_noColon fid k2 hfidne hfidc
  have hrun : runProg (some fid) fid s
      (seqProg fret (dv.map Prod.fst ++ []) [])
      = { out := .ok (fret ([] ++ dv.map (fun p => visVal p.2))), st := s,
          evs := [] } := by
    rw [seq_replay fret (some fid) fid dv [] [] s
      (fun p _ => by
        rw [hjoin]
        show (fid ++ ':' :: p.1.1).isPrefixOf fid = false
        exact isPrefixOf_longer fid ':' p.1.1)
      (fun p hp => by rw [hjoin]; exact hdv p hp)]
    rfl
  have hex : execTop (some fid)
      ⟨fid, true, seqProg fret (dv.map Prod.fst ++ []) []⟩ s
      = { out := .interrupt (.committed fid none),
          st := commitCached s fid
            (commitVal (fret (dv.map (fun p => visVal p.2)))),
          evs := [.invoke fid,
                  .commit fid
                    (commitVal (fret (dv.map (fun p => visVal p.2)))),
                  .enqueue none] } := by
    rw [execTop_entered (some fid) fid _ s _
      (show fid.isPrefixOf fid = true from isPrefixOf_self fid) hrun]
    rw [show invokeMark fid
        { out := .ok (fret ([] ++ dv.map (fun p => visVal p.2))), st := s,
          evs := [] }
      = { out := .ok (fret ([] ++ dv.map (fun p => visVal p.2))), st := s,
          evs := [.invoke fid] } from rfl]
    rw [commitPhase]
    rw [parentTask_noColon fid hfidc]
    simp only [List.nil_append]
    rfl
  exact dispatch_single_interrupt _ _ _ _ _ _ hlive hex

theorem c5_pop_done (f : Func) (s : EngSt) (w : JsVal)
    (hlive : s.store.live = true)
    (hc : cachedGet s f.fid = some w) :
    dispatchToFunctions [f] none s
      = (.ok (), { s with store := storeDispose s.store }, []) := by
  have hex : execTop none f s
      = { out := .ok (visVal w), st := s, evs := [] } := by
    obtain ⟨fid, acc, prog⟩ := f
    exact execTop_none_hit fid prog s w hc
  exact dispatch_single_ok _ _ _ _ _ _ hlive hex

-- C5 machinery: the dispatch loop over a straight-line handler ---------

theorem c5_loop (fid : Str) (fret : List JVal → JVal)
    (hfidne : fid ≠ []) (hfidc : ':' ∉ fid) :
    ∀ (todo : List (Str × StepFn)) (dv : List ((Str × StepFn) × JsVal))
      (s : EngSt),
    (∀ k2 ∈ dv.map (fun p => p.1.1) ++ todo.map Prod.fst, ':' ∉ k2) →
    List.Pairwise noMutual (dv.map (fun p => p.1.1) ++ todo.map Prod.fst) →
    s.store.live = true →
    assocGet fid s.cache = none →
    assocGet fid s.store.tasks = some .inProgress →
    (∀ p ∈ dv, cachedGet s (fid ++ ':' :: p.1.1) = some p.2) →
    (∀ k2 ∈ todo.map Prod.fst,
      assocGet (fid ++ ':' :: k2) s.cache = none
      ∧ assocGet (fid ++ ':' :: k2) s.store.tasks = none) →
    ∃ cacheF,
      mountLoop .untilError
          [⟨fid, true, seqProg fret (dv.map Prod.fst ++ todo) []⟩]
          (2 * todo.length + 2) s [some fid]
        = some { out := .ok (),
                 st := { store := { live := false, tasks := [] },
                         cache := cacheF },
                 evs := c5Trace fid fret todo (dv.map (fun p => visVal p.2)),
                 pubs := [] } := by
  intro todo
  induction todo with
  | nil =>
    intro dv s _ _ hlive hfc _ hdv _
    have hd1 := c5_pop_final fid fret dv s hfidne hfidc hlive hdv
    have hfu : 2 * List.length ([] : List (Str × StepFn)) + 2 = 1 + 1 := by
      simp
    rw [hfu, mountLoop_step_int _ 1 s _ [] _ _ _ hd1]
    have hcoll : collectEnqs [Ev.invoke fid,
        .commit fid (commitVal (fret (dv.map (fun p => visVal p.2)))),
        .enqueue none] = [none] := by
      simp [collectEnqs]
    rw [hcoll]
    set wf := commitVal (fret (dv.map (fun p => visVal p.2))) with hwf
    have hlive2 : (commitCached s fid wf).store.live = true := by
      simpa [commitCached, storeCommitResult] using hlive
    have hd2 := c5_pop_done
      ⟨fid, true, seqProg fret (dv.map Prod.fst ++ []) []⟩
      (commitCached s fid wf) wf hlive2 (cachedGet_commit_self s fid wf)
    rw [show ([] : List (Option Str)) ++ [none] = [none] from rfl,
      mountLoop_step_ok _ 0 _ none [] _ _ hd2]
    refine ⟨(commitCached s fid wf).cache, ?_⟩
    simp [mountLoop, collectEnqs, c5Trace, storeDispose]
  | cons hd rest ih =>
    obtain ⟨key, f⟩ := hd
    intro dv s hkeysc hpw hlive hfc hft hdv htodo
    have hkeyc : ':' ∉ key := by
      apply hkeysc
      refine List.mem_append.mpr (Or.inr ?_)
      exact List.mem_cons_self _ _
    -- pairwise consequences
    have hpwparts := (List.pairwise_append.mp hpw)
    have hnd : ∀ p ∈ dv, ¬ p.1.1 <+: key := by
      intro p hp
      have := hpwparts.2.2 p.1.1
        (List.mem_map_of_mem (fun q => q.1.1) hp) key
        (by rw [List.map_cons]; exact List.mem_cons_self _ _)
      exact this.1
    have hdne : ∀ p ∈ dv, p.1.1 ≠ key := by
      intro p hp he
      exact hnd p hp (he ▸ List.prefix_refl _)
    have hrne : ∀ k2 ∈ rest.map Prod.fst, key ≠ k2 := by
      intro k2 hk2 he
      have hkp := List.pairwise_cons.mp hpwparts.2.1
      exact (hkp.1 k2 hk2).1 (he ▸ List.prefix_refl _)
    -- facts about the head key
    have hkc : assocGet (fid ++ ':' :: key) s.cache = none := by
      exact (htodo key (by rw [List.map_cons]; exact List.mem_cons_self _ _)).1
    have hkt : assocGet (fid ++ ':' :: key) s.store.tasks = none := by
      exact (htodo key (by rw [List.map_cons]; exact List.mem_cons_self _ _)).2
    -- pop 1: trigger the step
    have hd1 := c5_pop_trigger fid fret dv key f rest s hfidne hfidc hlive
      hdv hkc hkt
    have hfu : 2 * List.length ((key, f) :: rest) + 2
        = (2 * rest.length + 2) + 1 + 1 := by
      simp [List.length_cons]
      ring
    rw [hfu, mountLoop_step_int _ _ s _ [] _ _ _ hd1]
    have hcoll1 : collectEnqs [Ev.invoke fid,
        .beginTask (fid ++ ':' :: key),
        .enqueue (some (fid ++ ':' :: key))] = [some (fid ++ ':' :: key)] := by
      simp [collectEnqs]
    rw [hcoll1]
    set s1 := { s with store := storeBeginTask s.store (fid ++ ':' :: key) }
      with hs1
    -- pop 2: execute and commit the step
    have hlive1 : s1.store.live = true := by
      simpa [hs1, storeBeginTask] using hlive
    have hdv1 : ∀ p ∈ dv, cachedGet s1 (fid ++ ':' :: p.1.1) = some p.2 := by
      intro p hp
      rw [hs1]
      rw [cachedGet_begin_ne s (fid ++ ':' :: key) (fid ++ ':' :: p.1.1)
        (fun he => hdne p hp (append_cons_inj fid ':' _ _ he))]
      exact hdv p hp
    have hd2 := c5_pop_commit fid fret dv key f rest s1 hfidne hfidc hkeyc
      hlive1 hdv1 hnd
    rw [show ([] : List (Option Str)) ++ [some (fid ++ ':' :: key)]
      = [some (fid ++ ':' :: key)] from rfl]
    rw [mountLoop_step_int _ _ s1 _ [] _ _ _ hd2]
    have hcoll2 : collectEnqs [Ev.invoke fid,
        .invoke (fid ++ ':' :: key),
        .commit (fid ++ ':' :: key)
          (commitVal (f (dv.map (fun p => visVal p.2)))),
        .enqueue (some fid)] = [some fid] := by
      simp [collectEnqs]
    rw [hcoll2]
    set w := commitVal (f (dv.map (fun p => visVal p.2))) with hw
    set s2 := commitCached s1 (fid ++ ':' :: key) w with hs2
    -- invariant for the inductive step
    have hfullne : fid ++ ':' :: key ≠ fid := append_cons_ne fid ':' key
    have hlive2 : s2.store.live = true := by
      simpa [hs2, commitCached, storeCommitResult] using hlive1
    have hfc2 : assocGet fid s2.cache = none := by
      rw [hs2]
      simp only [commitCached]
      rw [assocGet_set_ne _ _ _ _ (fun he => hfullne he.symm)]
      exact hfc
    have hft2 : assocGet fid s2.store.tasks = some .inProgress := by
      rw [hs2, hs1]
      simp only [commitCached, storeCommitResult, storeBeginTask]
      rw [assocGet_set_ne _ _ _ _ (fun he => hfullne he.symm),
          assocGet_set_ne _ _ _ _ (fun he => hfullne he.symm)]
      exact hft
    have hdv2 : ∀ p ∈ dv ++ [((key, f), w)],
        cachedGet s2 (fid ++ ':' :: p.1.1) = some p.2 := by
      intro p hp
      rcases List.mem_append.mp hp with hp1 | hp2
      · rw [hs2]
        rw [cachedGet_commit_ne s1 (fid ++ ':' :: key) (fid ++ ':' :: p.1.1) w
          (fun he => hdne p hp1 (append_cons_inj fid ':' _ _ he))]
        exact hdv1 p hp1
      · have hp3 : p = ((key, f), w) := by simpa using hp2
        rw [hp3, hs2]
        exact cachedGet_commit_self s1 (fid ++ ':' :: key) w
    have htodo2 : ∀ k2 ∈ rest.map Prod.fst,
        assocGet (fid ++ ':' :: k2) s2.cache = none
        ∧ assocGet (fid ++ ':' :: k2) s2.store.tasks = none := by
      intro k2 hk2
      have hne2 : fid ++ ':' :: k2 ≠ fid ++ ':' :: key :=
        fun he => hrne k2 hk2 (append_cons_inj fid ':' _ _ he).symm
      have hbase := htodo k2 (by
        rw [List.map_cons]
        exact List.mem_cons_of_mem _ hk2)
      constructor
      · rw [hs2]
        simp only [commitCached]
        rw [assocGet_set_ne _ _ _ _ hne2]
        exact hbase.1
      · rw [hs2, hs1]
        simp only [commitCached, storeCommitResult, storeBeginTask]
        rw [assocGet_set_ne _ _ _ _ hne2, assocGet_set_ne _ _ _ _ hne2]
        exact hbase.2
    have hlisteq : (dv ++ [((key, f), w)]).map (fun p => p.1.1)
        ++ rest.map Prod.fst
        = dv.map (fun p => p.1.1) ++ List.map Prod.fst ((key, f) :: rest) := by
      simp
    have hkeysc2 : ∀ k2 ∈ (dv ++ [((key, f), w)]).map (fun p => p.1.1)
        ++ rest.map Prod.fst, ':' ∉ k2 := by
      intro k2 hk2
      rw [hlisteq] at hk2
      exact hkeysc k2 hk2
    have hpw2 : List.Pairwise noMutual
        ((dv ++ [((key, f), w)]).map (fun p => p.1.1) ++ rest.map Prod.fst) := by
      rw [hlisteq]
      exact hpw
    obtain ⟨cacheF, hIH⟩ := ih (dv ++ [((key, f), w)]) s2 hkeysc2 hpw2
      hlive2 hfc2 hft2 hdv2 htodo2
    have hprogeq : (dv ++ [((key, f), w)]).map Prod.fst ++ rest
        = dv.map Prod.fst ++ (key, f) :: rest := by
      simp
    rw [hprogeq] at hIH
    rw [show ([] : List (Option Str)) ++ [some fid] = [some fid] from rfl]
    rw [hIH]
    refine ⟨cacheF, ?_⟩
    have hacc : (dv ++ [((key, f), w)]).map (fun p => visVal p.2)
        = dv.map (fun p => visVal p.2) ++ [visVal w] := by
      simp
    rw [hacc]
    simp [c5Trace, hw]

theorem c5Trace_stepInvokes (fid : Str) (fret : List JVal → JVal) :
    ∀ (todo : List (Str × StepFn)) (acc : List JVal),
    stepInvokes fid (c5Trace fid fret todo acc)
      = todo.map (fun p => fid ++ ':' :: p.1) := by
  intro todo
  induction todo with
  | nil =>
    intro acc
    simp [c5Trace, stepInvokes]
  | cons hd rest ih =>
    intro acc
    obtain ⟨key, f⟩ := hd
    have h1 : fid ++ ':' :: key ≠ fid := append_cons_ne fid ':' key
    simp [c5Trace, stepInvokes, h1]
    have := ih (acc ++ [visVal (commitVal (f acc))])
    simp [stepInvokes] at this
    exact this

-- C5 ------------------------------------------------------------------

/-- C5, counterexample.  A mount in UNTIL_ERROR mode with one matching
function whose two step callbacks both succeed, with step keys "b" and
"bc".  Because targeting is a raw string-prefix test (worker.ts:132),
the delivery targeted at func1:bc re-enters the already committed step
func1:b; its callback runs twice, the callback of bc never runs, and
the loop ends with the execution still in the store: the claim that
every step callback is invoked exactly once and that the execution is
disposed fails.  (The dispatcher is indeed never invoked.) -/
theorem c5_counterexample :
    (mountExecute .untilError
        [⟨"func1".toList, true,
          seqProg (fun _ => none)
            [("b".toList, fun _ => some (.num 1)),
             ("bc".toList, fun _ => some (.num 2))] []⟩]
        none { live := false, tasks := [] } 12).map
      (fun m => (m.out, m.evs.count (.invoke "func1:b".toList),
                 m.evs.count (.invoke "func1:bc".toList),
                 m.st.store.live, m.pubs))
      = some (.ok (), 2, 0, true, []) := by
  rfl

/-- C5, amended.  In UNTIL_ERROR execution mode, for a mount with one
matching function built from straight-line steps whose callbacks all
succeed - provided the function id and the step keys are single
nonempty-id colon-free segments and no step key is a string prefix of
another (which also rules out duplicates) - a single call to
mount.execute publishes nothing through the dispatcher (pubs = []),
produces exactly the expected trace: each step is begun, invoked
exactly once, in handler source order, and committed with the value its
callback computed from the handler-visible results of the earlier
steps, and on completion the execution is disposed: the final store is
not live and holds no task state.  The second conjunct extracts from
that trace that the step-callback invocations are exactly the step
paths in source order. -/
theorem c5_amended (fid : Str) (steps : List (Str × StepFn))
    (fret : List JVal → JVal) (s0 : ExecStore)
    (hfidne : fid ≠ []) (hfidc : ':' ∉ fid)
    (hkeysc : ∀ k2 ∈ steps.map Prod.fst, ':' ∉ k2)
    (hpw : List.Pairwise noMutual (steps.map Prod.fst)) :
    (∃ cacheF,
      mountExecute .untilError [⟨fid, true, seqProg fret steps []⟩] none s0
          (2 * steps.length + 3)
        = some { out := .ok (),
                 st := { store := { live := false, tasks := [] },
                         cache := cacheF },
                 evs := .beginTask fid :: .enqueue (some fid)
                   :: c5Trace fid fret steps [],
                 pubs := [] })
    ∧ stepInvokes fid (.beginTask fid :: .enqueue (some fid)
        :: c5Trace fid fret steps [])
      = steps.map (fun p => fid ++ ':' :: p.1) := by
  constructor
  · unfold mountExecute
    rw [show ([⟨fid, true, seqProg fret steps []⟩] : List Func).filter
        (fun f => f.accepts) = [⟨fid, true, seqProg fret steps []⟩] from rfl]
    rw [if_neg (by simp)]
    dsimp only
    have hexec : execTop none ⟨fid, true, seqProg fret steps []⟩
        { store := { live := true, tasks := [] }, cache := [] }
        = { out := .interrupt (.triggered fid),
            st := { store := { live := true, tasks := [(fid, .inProgress)] },
                    cache := [] },
            evs := [.beginTask fid, .enqueue (some fid)] } := by
      unfold execTop executeStep shortcutStep
      simp only [joinTask_nil]
      rw [if_neg (by simp [enterCheck])]
      rw [show cachedGet { store := { live := true, tasks := [] }, cache := [] }
          fid = none from rfl]
      rfl
    have hd0 := dispatch_single_interrupt none
      ⟨fid, true, seqProg fret steps []⟩
      { store := { live := true, tasks := [] }, cache := [] }
      (.triggered fid)
      { store := { live := true, tasks := [(fid, .inProgress)] }, cache := [] }
      [.beginTask fid, .enqueue (some fid)] rfl hexec
    rw [show 2 * steps.length + 3 = (2 * steps.length + 2) + 1 from rfl]
    rw [mountLoop_step_int _ _ _ none [] _ _ _ hd0]
    have hcoll0 : collectEnqs [Ev.beginTask fid, .enqueue (some fid)]
        = [some fid] := by
      simp [collectEnqs]
    rw [hcoll0]
    have hinv := c5_loop fid fret hfidne hfidc steps []
      { store := { live := true, tasks := [(fid, .inProgress)] }, cache := [] }
      (by simpa using hkeysc)
      (by simpa using hpw)
      rfl rfl
      (by simp [assocGet])
      (by intro p hp; cases hp)
      (by
        intro k2 _
        constructor
        · rfl
        · have hne : fid ≠ fid ++ ':' :: k2 :=
            fun he => append_cons_ne fid ':' k2 he.symm
          simp [assocGet, hne])
    obtain ⟨cacheF, hL⟩ := hinv
    simp only [List.map_nil, List.nil_append] at hL
    rw [show ([] : List (Option Str)) ++ [some fid] = [some fid] from rfl]
    rw [hL]
    exact ⟨cacheF, by simp⟩
  · rw [show stepInvokes fid (.beginTask fid :: .enqueue (some fid)
        :: c5Trace fid fret steps [])
      = stepInvokes fid (c5Trace fid fret steps []) by simp [stepInvokes]]
    exact c5Trace_stepInvokes fid fret steps []

/-- C5 witness: two concrete steps r1 and r2; the amended theorem
applied to them. -/
theorem c5_amended_witness :
    (("func1".toList ≠ [] ∧ ':' ∉ "func1".toList
      ∧ (∀ k2 ∈ ([("step1".toList, fun _ => some (JsVal.str "r1".toList)),
           ("step2".toList, fun _ => some (JsVal.str "r2".toList))]
            : List (Str × StepFn)).map Prod.fst, ':' ∉ k2)
      ∧ List.Pairwise noMutual
          (([("step1".toList, fun _ => some (JsVal.str "r1".toList)),
             ("step2".toList, fun _ => some (JsVal.str "r2".toList))]
            : List (Str × StepFn)).map Prod.fst)))
    ∧ ((∃ cacheF,
        mountExecute .untilError
            [⟨"func1".toList, true,
              seqProg (fun _ => none)
                [("step1".toList, fun _ => some (JsVal.str "r1".toList)),
                 ("step2".toList, fun _ => some (JsVal.str "r2".toList))] []⟩]
            none { live := false, tasks := [] }
            (2 * ([("step1".toList, fun _ => some (JsVal.str "r1".toList)),
                   ("step2".toList, fun _ => some (JsVal.str "r2".toList))]
              : List (Str × StepFn)).length + 3)
          = some { out := .ok (),
                   st := { store := { live := false, tasks := [] },
                           cache := cacheF },
                   evs := .beginTask "func1".toList
                     :: .enqueue (some "func1".toList)
                     :: c5Trace "func1".toList (fun _ => none)
                       [("step1".toList, fun _ => some (JsVal.str "r1".toList)),
                        ("step2".toList, fun _ => some (JsVal.str "r2".toList))]
                       [],
                   pubs := [] })
      ∧ stepInvokes "func1".toList (.beginTask "func1".toList
          :: .enqueue (some "func1".toList)
          :: c5Trace "func1".toList (fun _ => none)
            [("step1".toList, fun _ => some (JsVal.str "r1".toList)),
             ("step2".toList, fun _ => some (JsVal.str "r2".toList))] [])
        = ([("step1".toList, fun _ => some (JsVal.str "r1".toList)),
            ("step2".toList, fun _ => some (JsVal.str "r2".toList))]
            : List (Str × StepFn)).map
            (fun p => "func1".toList ++ ':' :: p.1)) := by
  refine ⟨⟨by decide, by decide, ?_, ?_⟩, ?_⟩
  · intro k2 hk2
    simp at hk2
    rcases hk2 with h | h <;> rw [h] <;> decide
  · simp
    decide
  · exact c5_amended "func1".toList _ (fun _ => none) _
      (by decide) (by decide)
      (by
        intro k2 hk2
        simp at hk2
        rcases hk2 with h | h <;> rw [h] <;> decide)
      (by
        simp
        decide)

end Idioteque
